import Mathlib

/-!
Verification of the dependency-analyzer core of the CPP_RELATIONS repository
(`src/backend/parser/dependency_analyzer.py`, data model from
`src/backend/parser/ast_extractor.py`).

The Python code is shallowly embedded: dataclasses become structures, Python
dicts (which preserve insertion order, and keep the original position when an
existing key is overwritten) become association lists with an
update-in-place-or-append `insertA`, and the mutating methods of
`DependencyAnalyzer` become pure functions on `DependencyGraph`.
Python builtins used by the code (`str.endswith`, substring containment via
`in`, `pathlib.Path.name` / `.parent` / `.parts`, the stable builtin
`sorted`, and `networkx.simple_cycles`) are modelled by explicit structurally
recursive definitions so that everything evaluates inside the kernel.
-/

namespace CppRelations

/-- `SymbolInfo` dataclass from `ast_extractor.py`. -/
structure SymbolInfo where
  name : String
  type : String
  line : Nat
  end_line : Nat
  scope : Option String := none
  params : List String := []
  return_type : Option String := none
  is_template : Bool := false
  is_virtual : Bool := false
  is_static : Bool := false
  deriving DecidableEq

/-- `IncludeInfo` dataclass from `ast_extractor.py`. -/
structure IncludeInfo where
  path : String
  line : Nat
  is_system : Bool := false
  deriving DecidableEq

/-- `FileSymbols` dataclass from `ast_extractor.py`.  The Python field
`function_calls` is a `set`; it is modelled as the list of its elements in
iteration order (iteration order is fixed within one process run, which is all
the analyzer relies on). -/
structure FileSymbols where
  file_path : String
  functions : List SymbolInfo := []
  classes : List SymbolInfo := []
  structs : List SymbolInfo := []
  namespaces : List SymbolInfo := []
  includes : List IncludeInfo := []
  function_calls : List String := []
  deriving DecidableEq

/-- `FileDependency` dataclass from `dependency_analyzer.py`. -/
structure FileDependency where
  source : String
  target : String
  reason : String
  line : Option Nat := none
  deriving DecidableEq

/-- Lookup in an insertion-ordered association list: models Python `d[k]` /
`k in d` on a dict represented as its ordered key-value pairs. -/
def lookupA {β : Type} : List (String × β) → String → Option β
  | [], _ => none
  | (k, v) :: rest, key => if k = key then some v else lookupA rest key

/-- Update of an insertion-ordered association list: models Python
`d[k] = v`, which overwrites in place when the key exists and appends a new
entry at the end otherwise. -/
def insertA {β : Type} : List (String × β) → String → β → List (String × β)
  | [], key, val => [(key, val)]
  | (k, v) :: rest, key, val =>
    if k = key then (key, val) :: rest else (k, v) :: insertA rest key val

/-- `DependencyGraph` dataclass from `dependency_analyzer.py`; the three dicts
become association lists. -/
structure DependencyGraph where
  files : List (String × FileSymbols) := []
  dependencies : List FileDependency := []
  file_index : List (String × String) := []
  symbol_index : List (String × List (String × SymbolInfo)) := []
  deriving DecidableEq

/-- A fresh `DependencyAnalyzer().graph`. -/
def emptyGraph : DependencyGraph := {}

/-- Splitting a character list at a separator character; models Python
`str.split` as used through `pathlib` on the path separator. -/
def splitOnChar (c : Char) : List Char → List (List Char)
  | [] => [[]]
  | x :: xs =>
    let r := splitOnChar c xs
    if x = c then [] :: r
    else
      match r with
      | [] => [[x]]
      | y :: ys => (x :: y) :: ys

/-- Models `pathlib.Path(p).parts` for the plain relative paths the analyzer
handles: the `/`-separated components. -/
def pathParts (p : String) : List String :=
  (splitOnChar (Char.ofNat 47) p.data).map (fun cs => String.mk cs)

/-- Models `pathlib.Path(p).name`: the final path component. -/
def pathName (p : String) : String :=
  (pathParts p).getLastD ""

/-- Joins path components with `/`. -/
def joinWithSlash : List String → String
  | [] => ""
  | [x] => x
  | x :: xs => x ++ "/" ++ joinWithSlash xs

/-- Models `str(pathlib.Path(p).parent)`: all but the last component, or `"."`
when the path is a bare name. -/
def pathParent (p : String) : String :=
  let cs := pathParts p
  if cs.length ≤ 1 then "." else joinWithSlash cs.dropLast

/-- Models `str(pathlib.Path(d) / f)`: `pathlib` drops a `"."` parent. -/
def pathJoin (d f : String) : String :=
  if d = "." then f else d ++ "/" ++ f

/-- Models Python `s.endswith(suf)`. -/
def strEndsWith (s suf : String) : Bool :=
  suf.data.isSuffixOf s.data

/-- Models Python substring containment `pat in s`. -/
def containsSubstr (s pat : String) : Bool :=
  (List.range (s.data.length + 1)).any (fun i => pat.data.isPrefixOf (s.data.drop i))

/-- One `self.graph.symbol_index[symbol.name].append((file_path, symbol))`
step of `add_file`, together with the preceding
`if symbol.name not in self.graph.symbol_index: ... = []`. -/
def indexAppend (idx : List (String × List (String × SymbolInfo))) (name : String)
    (entry : String × SymbolInfo) : List (String × List (String × SymbolInfo)) :=
  match lookupA idx name with
  | none => idx ++ [(name, [entry])]
  | some l => insertA idx name (l ++ [entry])

/-- `DependencyAnalyzer.add_file` (dependency_analyzer.py lines 39-52). -/
def add_file (g : DependencyGraph) (file_path : String) (symbols : FileSymbols) :
    DependencyGraph :=
  { files := insertA g.files file_path symbols
    dependencies := g.dependencies
    file_index := insertA g.file_index (pathName file_path) file_path
    symbol_index :=
      (symbols.functions ++ symbols.classes ++ symbols.structs).foldl
        (fun idx sym => indexAppend idx sym.name (file_path, sym)) g.symbol_index }

/-- `DependencyAnalyzer._resolve_include` (lines 81-116): the five resolution
strategies tried in order, first match short-circuiting.  The Python locals
`include_filename = Path(include_path).name` and
`potential_path = str(source_dir / include_path)` are inlined. -/
def resolve_include (g : DependencyGraph) (include_path source_file : String) :
    Option String :=
  if (lookupA g.files include_path).isSome then
    some include_path
  else
    match lookupA g.file_index (pathName include_path) with
    | some p => some p
    | none =>
      match (g.files.map Prod.fst).find? (fun fp => strEndsWith fp include_path) with
      | some fp => some fp
      | none =>
        if (lookupA g.files (pathJoin (pathParent source_file) include_path)).isSome then
          some (pathJoin (pathParent source_file) include_path)
        else
          (g.files.map Prod.fst).find? (fun fp => pathName fp == pathName include_path)

/-- `DependencyAnalyzer._has_dependency` (lines 138-143). -/
def has_dependency (deps : List FileDependency) (source target : String) : Bool :=
  deps.any (fun dep => dep.source == source && dep.target == target)

/-- `DependencyAnalyzer._analyze_includes` (lines 68-79), with the growing
edge list passed explicitly. -/
def analyze_includes (g : DependencyGraph) (deps : List FileDependency)
    (source_file : String) (symbols : FileSymbols) : List FileDependency :=
  symbols.includes.foldl
    (fun ds inc =>
      match resolve_include g inc.path source_file with
      | some target_file =>
        ds ++ [{ source := source_file, target := target_file,
                 reason := "include", line := some inc.line }]
      | none => ds)
    deps

/-- `DependencyAnalyzer._analyze_function_calls` (lines 118-136), with the
growing edge list passed explicitly. -/
def analyze_function_calls (g : DependencyGraph) (deps : List FileDependency)
    (source_file : String) (symbols : FileSymbols) : List FileDependency :=
  symbols.function_calls.foldl
    (fun ds called_func =>
      match lookupA g.symbol_index called_func with
      | none => ds
      | some entries =>
        entries.foldl
          (fun ds2 entry =>
            if entry.1 = source_file then ds2
            else if has_dependency ds2 source_file entry.1 then ds2
            else ds2 ++ [{ source := source_file, target := entry.1,
                           reason := "call", line := none }])
          ds)
    deps

/-- `DependencyAnalyzer.analyze_dependencies` (lines 54-66): clears the edge
list, then processes every file's includes and then its calls. -/
def analyze_dependencies (g : DependencyGraph) : DependencyGraph :=
  { g with dependencies :=
      g.files.foldl (fun ds fs =>
        analyze_function_calls g (analyze_includes g ds fs.1 fs.2) fs.1 fs.2) [] }

/-- `DependencyAnalyzer.get_dependencies_of` (lines 145-150). -/
def get_dependencies_of (g : DependencyGraph) (file_path : String) : List String :=
  (g.dependencies.filter (fun dep => dep.source == file_path)).map
    (fun dep => dep.target)

/-- `DependencyAnalyzer.get_dependents_of` (lines 152-157). -/
def get_dependents_of (g : DependencyGraph) (file_path : String) : List String :=
  (g.dependencies.filter (fun dep => dep.target == file_path)).map
    (fun dep => dep.source)

/-- Values of the heterogeneous metrics dict returned by `get_file_metrics`. -/
inductive MetricValue where
  | str (s : String)
  | nat (n : Nat)
  deriving DecidableEq

/-- `DependencyAnalyzer.get_file_metrics` (lines 159-177); the returned dict
is the ordered key-value list, `[]` for an unknown path. -/
def get_file_metrics (g : DependencyGraph) (file_path : String) :
    List (String × MetricValue) :=
  match lookupA g.files file_path with
  | none => []
  | some symbols =>
    let dependencies := get_dependencies_of g file_path
    let dependents := get_dependents_of g file_path
    [("file", MetricValue.str file_path),
     ("functions_count", MetricValue.nat symbols.functions.length),
     ("classes_count", MetricValue.nat symbols.classes.length),
     ("structs_count", MetricValue.nat symbols.structs.length),
     ("includes_count", MetricValue.nat symbols.includes.length),
     ("dependencies_count", MetricValue.nat dependencies.length),
     ("dependents_count", MetricValue.nat dependents.length),
     ("coupling", MetricValue.nat (dependencies.length + dependents.length))]

/-- Node insertion of `networkx.DiGraph.add_edge`: nodes are recorded once, in
first-encounter order. -/
def insertNode (ns : List String) (x : String) : List String :=
  if x ∈ ns then ns else ns ++ [x]

/-- The node list of the `networkx.DiGraph` built from an edge list. -/
def graphNodes (edges : List (String × String)) : List String :=
  edges.foldl (fun ns e => insertNode (insertNode ns e.1) e.2) []

/-- Edge membership in the built digraph (parallel duplicates collapse). -/
def hasEdge (edges : List (String × String)) (a b : String) : Bool :=
  edges.any (fun e => e.1 == a && e.2 == b)

/-- Every consecutive pair of the list is an edge. -/
def chainOk (edges : List (String × String)) : List String → Bool
  | [] => true
  | [_] => true
  | a :: b :: rest => hasEdge edges a b && chainOk edges (b :: rest)

/-- `l` is a simple directed cycle of the digraph: nonempty, no repeated node,
consecutive nodes are edges, and the last node has an edge back to the first
(a one-element list is a self-loop cycle). -/
def isCycleList (edges : List (String × String)) (l : List String) : Bool :=
  match l with
  | [] => false
  | a :: rest =>
    decide ((a :: rest).Nodup) && chainOk edges (a :: rest)
      && hasEdge edges ((a :: rest).getLastD "") a

/-- Position of a node in the digraph's node list. -/
def nodeIdx (ns : List String) (x : String) : Nat := ns.indexOf x

/-- Canonical representative of a rotation class: the head is a member of
minimal node position. -/
def isCanon (ns : List String) (l : List String) : Bool :=
  match l with
  | [] => false
  | a :: rest => rest.all (fun b => decide (nodeIdx ns a ≤ nodeIdx ns b))

/-- Modelled from the spec: `networkx.simple_cycles` is an external library
call (dependency_analyzer.py line 190); per the spec it must "enumerate all
simple directed cycles" of the digraph, one representative per rotation
class.  Modelled by brute-force enumeration: all duplicate-free sequences of
graph nodes that form a cycle, keeping the canonical rotation of each. -/
def simpleCyclesOf (edges : List (String × String)) : List (List String) :=
  let ns := graphNodes edges
  (ns.sublists.flatMap (fun s => s.permutations')).filter
    (fun l => isCycleList edges l && isCanon ns l)

/-- `DependencyAnalyzer.find_circular_dependencies` (lines 179-193): builds a
digraph from the edge list (parallel edges collapsing) and enumerates its
simple cycles. -/
def find_circular_dependencies (g : DependencyGraph) : List (List String) :=
  simpleCyclesOf (g.dependencies.map (fun d => (d.source, d.target)))

/-- Insertion step of a stable descending sort on the second component:
models the behavior of Python's stable builtin
`sorted(items, key=lambda x: x[1], reverse=True)`. -/
def insertDesc (x : String × Nat) : List (String × Nat) → List (String × Nat)
  | [] => [x]
  | y :: ys => if y.2 < x.2 then x :: y :: ys else y :: insertDesc x ys

/-- Stable descending sort on the second component (insertion sort, which is
stable and therefore agrees with Python's stable `sorted(..., reverse=True)`). -/
def sortDesc (l : List (String × Nat)) : List (String × Nat) :=
  l.foldl (fun acc x => insertDesc x acc) []

/-- The `coupling` dict of `get_most_coupled_files`, as its ordered item
list: one entry per file in insertion order. -/
def couplingItems (g : DependencyGraph) : List (String × Nat) :=
  g.files.map (fun fs =>
    (fs.1, (get_dependencies_of g fs.1).length + (get_dependents_of g fs.1).length))

/-- `DependencyAnalyzer.get_most_coupled_files` (lines 195-206). -/
def get_most_coupled_files (g : DependencyGraph) (limit : Nat) :
    List (String × Nat) :=
  (sortDesc (couplingItems g)).take limit

/-- One exported symbol entry of `export_to_dict`. -/
structure ExportSymbol where
  name : String
  line : Nat
  type : String
  deriving DecidableEq

/-- One node of the exported document. -/
structure ExportNode where
  id : String
  name : String
  type : String
  group : String
  exportedSymbols : List ExportSymbol
  metrics : List (String × MetricValue)
  deriving DecidableEq

/-- One link of the exported document. -/
structure ExportLink where
  source : String
  target : String
  reason : String
  deriving DecidableEq

/-- The `metadata` record of the exported document. -/
structure ExportMeta where
  total_files : Nat
  total_dependencies : Nat
  circular_dependencies : Nat
  deriving DecidableEq

/-- The exported document `{nodes, links, metadata}`. -/
structure ExportDoc where
  nodes : List ExportNode
  links : List ExportLink
  metadata : ExportMeta
  deriving DecidableEq

/-- The file-type classification inside `export_to_dict`
(dependency_analyzer.py lines 215-224): the if/elif chain over the path. -/
def file_type_of (file_path : String) : String :=
  if strEndsWith file_path ".h" || strEndsWith file_path ".hpp"
      || strEndsWith file_path ".hh" then "header"
  else if strEndsWith file_path ".cpp" || strEndsWith file_path ".cc"
      || strEndsWith file_path ".cxx" || strEndsWith file_path ".c" then "source"
  else if containsSubstr file_path "CMakeLists" || strEndsWith file_path ".cmake" then
    "cmake"
  else if strEndsWith file_path ".json" then "json"
  else "other"

/-- `DependencyAnalyzer.export_to_dict` (lines 208-270). -/
def export_to_dict (g : DependencyGraph) : ExportDoc :=
  let nodes := g.files.map (fun fs =>
    let file_path := fs.1
    let symbols := fs.2
    let parts := pathParts file_path
    let group := if parts.length > 1 then parts.getD (parts.length - 2) "root" else "root"
    let exported :=
      (symbols.functions.take 5).map (fun func =>
        ({ name := func.name ++ "()", line := func.line, type := "function" } : ExportSymbol))
      ++ (symbols.classes.take 5).map (fun cls =>
        ({ name := "class " ++ cls.name, line := cls.line, type := "class" } : ExportSymbol))
    ({ id := file_path, name := pathName file_path, type := file_type_of file_path,
       group := group, exportedSymbols := exported,
       metrics := get_file_metrics g file_path } : ExportNode))
  let links := g.dependencies.map (fun dep =>
    ({ source := dep.source, target := dep.target, reason := dep.reason } : ExportLink))
  { nodes := nodes
    links := links
    metadata :=
      { total_files := nodes.length
        total_dependencies := links.length
        circular_dependencies := (find_circular_dependencies g).length } }

/-- Building a graph by adding files one at a time, as the public API does. -/
def buildGraph (l : List (String × FileSymbols)) : DependencyGraph :=
  l.foldl (fun g fs => add_file g fs.1 fs.2) emptyGraph

/-! ## Helper lemmas about the association-list operations -/

theorem lookupA_insertA_self {β : Type} (l : List (String × β)) (k : String) (v : β) :
    lookupA (insertA l k v) k = some v := by
  induction l with
  | nil => simp [insertA, lookupA]
  | cons p rest ih =>
    by_cases h : p.1 = k
    · simp [insertA, h, lookupA]
    · simp only [insertA, h, if_false, lookupA]
      simp [h, ih]

theorem lookupA_insertA_ne {β : Type} (l : List (String × β)) (k k' : String) (v : β)
    (h : k' ≠ k) : lookupA (insertA l k v) k' = lookupA l k' := by
  have hk : ¬k = k' := fun he => h he.symm
  induction l with
  | nil => simp [insertA, lookupA, hk]
  | cons p rest ih =>
    by_cases hp : p.1 = k
    · simp only [insertA, hp, if_true, lookupA]
      simp [hk, hp]
    · simp only [insertA, hp, if_false, lookupA]
      by_cases hk' : p.1 = k'
      · simp [hk']
      · simp [hk', ih]

theorem lookupA_isSome_insertA {β : Type} (l : List (String × β)) (k k' : String) (v : β)
    (h : (lookupA l k').isSome = true) :
    (lookupA (insertA l k v) k').isSome = true := by
  by_cases hk : k' = k
  · subst hk; rw [lookupA_insertA_self]; rfl
  · rw [lookupA_insertA_ne _ _ _ _ hk]; exact h

theorem mem_insertA {β : Type} (l : List (String × β)) (k : String) (v : β)
    (p : String × β) (h : p ∈ insertA l k v) : p ∈ l ∨ p = (k, v) := by
  induction l with
  | nil => simp [insertA] at h; simp [h]
  | cons q rest ih =>
    by_cases hq : q.1 = k
    · simp only [insertA, hq, if_true] at h
      rcases List.mem_cons.mp h with h | h
      · right; exact h
      · left; exact List.mem_cons_of_mem _ h
    · simp only [insertA, hq, if_false] at h
      rcases List.mem_cons.mp h with h | h
      · left; exact h ▸ List.mem_cons_self _ _
      · rcases ih h with h | h
        · left; exact List.mem_cons_of_mem _ h
        · right; exact h

theorem lookupA_eq_some_mem {β : Type} {l : List (String × β)} {k : String} {v : β}
    (h : lookupA l k = some v) : (k, v) ∈ l := by
  induction l with
  | nil => simp [lookupA] at h
  | cons p rest ih =>
    by_cases hp : p.1 = k
    · simp only [lookupA, hp, if_true, Option.some.injEq] at h
      have hpv : p = (k, v) := by
        obtain ⟨a, b⟩ := p
        simp only at hp h
        rw [hp, h]
      rw [hpv]
      exact List.mem_cons_self _ _
    · simp only [lookupA, hp, if_false] at h
      exact List.mem_cons_of_mem _ (ih h)

theorem lookupA_isSome_iff_mem_keys {β : Type} {l : List (String × β)} {k : String} :
    (lookupA l k).isSome = true ↔ k ∈ l.map Prod.fst := by
  induction l with
  | nil => simp [lookupA]
  | cons p rest ih =>
    by_cases hp : p.1 = k
    · simp [lookupA, hp]
    · simp only [lookupA, hp, if_false, List.map_cons, List.mem_cons]
      rw [ih]
      constructor
      · intro h; right; exact h
      · rintro (h | h)
        · exact absurd h.symm hp
        · exact h

theorem lookupA_append_some {β : Type} {l1 : List (String × β)} (l2 : List (String × β))
    {k : String} {v : β} (h : lookupA l1 k = some v) :
    lookupA (l1 ++ l2) k = some v := by
  induction l1 with
  | nil => simp [lookupA] at h
  | cons p rest ih =>
    by_cases hp : p.1 = k
    · simpa [lookupA, hp] using h
    · simp only [lookupA, hp, if_false] at h
      simpa [lookupA, hp] using ih h

theorem lookupA_append_none {β : Type} {l1 : List (String × β)} (l2 : List (String × β))
    {k : String} (h : lookupA l1 k = none) :
    lookupA (l1 ++ l2) k = lookupA l2 k := by
  induction l1 with
  | nil => simp
  | cons p rest ih =>
    by_cases hp : p.1 = k
    · simp [lookupA, hp] at h
    · simp only [lookupA, hp, if_false] at h
      simpa [lookupA, hp] using ih h

theorem foldl_preserve {α β : Type} (P : β → Prop) (f : β → α → β) :
    ∀ (l : List α) (b : β), (∀ b a, a ∈ l → P b → P (f b a)) → P b → P (l.foldl f b) := by
  intro l
  induction l with
  | nil => intro b _ hb; exact hb
  | cons x xs ih =>
    intro b hf hb
    exact ih (f b x) (fun b' a ha => hf b' a (List.mem_cons_of_mem _ ha))
      (hf b x (List.mem_cons_self _ _) hb)

/-! ## Concrete graphs used by witnesses and counterexamples -/

/-- A file defining a function `f`. -/
def symF : SymbolInfo := { name := "f", type := "function", line := 1, end_line := 2 }

/-- `b.cpp` defines `f`. -/
def symsDefiner : FileSymbols := { file_path := "b.cpp", functions := [symF] }

/-- `a.cpp` calls `f` and has no includes. -/
def symsCaller : FileSymbols := { file_path := "a.cpp", function_calls := ["f"] }

/-- Graph with a definer and a caller, producing one Call edge on analysis. -/
def gCall : DependencyGraph :=
  add_file (add_file emptyGraph "b.cpp" symsDefiner) "a.cpp" symsCaller

/-- The single Call edge produced by analyzing `gCall`. -/
def callEdge : FileDependency :=
  { source := "a.cpp", target := "b.cpp", reason := "call", line := none }

/-- `a2.cpp` includes `"b.h"`. -/
def symsIncluder : FileSymbols :=
  { file_path := "a2.cpp", includes := [{ path := "b.h", line := 3 }] }

/-- An empty header file record. -/
def symsHeader : FileSymbols := { file_path := "b.h" }

/-! ## C4: analyze_dependencies is idempotent -/

/-- C4: `analyze_dependencies` first clears the edge list and recomputes it
from `files` and the derived indexes only, so running it twice in a row on an
unchanged graph yields the identical graph (hence identical edge lists, and
edges are never duplicated across repeated passes). -/
theorem analyze_dependencies_idempotent (g : DependencyGraph) :
    analyze_dependencies (analyze_dependencies g) = analyze_dependencies g := rfl

/-! ## C5: exact-match include resolution -/

/-- C5: whenever the include path is itself a key of the graph's file map,
`_resolve_include` returns it via strategy 1 (exact match), short-circuiting
the remaining strategies, regardless of basename collisions or suffix matches
elsewhere in the graph. -/
theorem resolve_include_exact (g : DependencyGraph) (include_path source_file : String)
    (h : (lookupA g.files include_path).isSome = true) :
    resolve_include g include_path source_file = some include_path := by
  unfold resolve_include
  rw [h]
  rfl

/-- Witness for C5 on a concrete graph where the include path is a key even
though another file shares its basename. -/
theorem resolve_include_exact_witness :
    (lookupA (add_file (add_file emptyGraph "sub/b.h" symsHeader) "b.h" symsHeader).files
        "b.h").isSome = true
    ∧ resolve_include (add_file (add_file emptyGraph "sub/b.h" symsHeader) "b.h" symsHeader)
        "b.h" "a.cpp" = some "b.h" :=
  ⟨by decide,
   resolve_include_exact (add_file (add_file emptyGraph "sub/b.h" symsHeader) "b.h" symsHeader)
     "b.h" "a.cpp" (by decide)⟩

/-! ## C8: coupling metric -/

/-- C8: for every file present in the graph, the `coupling` entry of
`get_file_metrics` equals the length of `get_dependencies_of` plus the length
of `get_dependents_of` (the edge targets with that source and the edge
sources with that target). -/
theorem get_file_metrics_coupling (g : DependencyGraph) (file_path : String)
    (symbols : FileSymbols) (h : lookupA g.files file_path = some symbols) :
    lookupA (get_file_metrics g file_path) "coupling"
      = some (MetricValue.nat
          ((get_dependencies_of g file_path).length
            + (get_dependents_of g file_path).length)) := by
  unfold get_file_metrics
  rw [h]
  rfl

/-- Witness for C8 on the analyzed caller/definer graph. -/
theorem get_file_metrics_coupling_witness :
    lookupA (analyze_dependencies gCall).files "a.cpp" = some symsCaller
    ∧ lookupA (get_file_metrics (analyze_dependencies gCall) "a.cpp") "coupling"
      = some (MetricValue.nat
          ((get_dependencies_of (analyze_dependencies gCall) "a.cpp").length
            + (get_dependents_of (analyze_dependencies gCall) "a.cpp").length)) :=
  ⟨by decide,
   get_file_metrics_coupling (analyze_dependencies gCall) "a.cpp" symsCaller (by decide)⟩

/-! ## C10: metrics of an unknown path -/

/-- C10: for a path that is not a key of the graph's file map,
`get_file_metrics` returns the empty dict — no metric keys at all — rather
than raising or returning zeroed metrics. -/
theorem get_file_metrics_missing (g : DependencyGraph) (file_path : String)
    (h : lookupA g.files file_path = none) :
    get_file_metrics g file_path = [] := by
  unfold get_file_metrics
  rw [h]

/-- Witness for C10: an unknown path on a nonempty graph. -/
theorem get_file_metrics_missing_witness :
    lookupA gCall.files "zzz.cpp" = none ∧ get_file_metrics gCall "zzz.cpp" = [] :=
  ⟨by decide, get_file_metrics_missing gCall "zzz.cpp" (by decide)⟩

/-! ## C1: add_file on a re-added path -/

/-- The entry list recorded in a symbol index under a symbol name. -/
def entriesFor (idx : List (String × List (String × SymbolInfo))) (n : String) :
    List (String × SymbolInfo) :=
  (lookupA idx n).getD []

theorem entriesFor_indexAppend (idx : List (String × List (String × SymbolInfo)))
    (name n : String) (e : String × SymbolInfo) :
    entriesFor (indexAppend idx name e) n
      = entriesFor idx n ++ (if name = n then [e] else []) := by
  unfold indexAppend entriesFor
  cases hl : lookupA idx name with
  | none =>
    by_cases hn : name = n
    · subst hn
      rw [lookupA_append_none _ hl, hl]
      simp [lookupA]
    · cases hln : lookupA idx n with
      | none =>
        rw [lookupA_append_none _ hln]
        simp [lookupA, hn, hln]
      | some l =>
        rw [lookupA_append_some _ hln]
        simp [hn, hln]
  | some l =>
    by_cases hn : name = n
    · subst hn
      rw [lookupA_insertA_self, hl]
      simp
    · rw [lookupA_insertA_ne _ _ _ _ (fun he => hn he.symm)]
      simp [hn]

theorem entriesFor_foldl_indexAppend (p n : String) (syms : List SymbolInfo) :
    ∀ idx, entriesFor (syms.foldl (fun idx sym => indexAppend idx sym.name (p, sym)) idx) n
      = entriesFor idx n
          ++ (syms.filter (fun sym => sym.name == n)).map (fun sym => (p, sym)) := by
  induction syms with
  | nil => intro idx; simp
  | cons s rest ih =>
    intro idx
    rw [List.foldl_cons, ih, entriesFor_indexAppend]
    by_cases h : s.name = n
    · simp [List.filter_cons, h, List.append_assoc]
    · simp [List.filter_cons, h]

/-- A second version of the function `f`, re-extracted at a new location. -/
def symF10 : SymbolInfo := { name := "f", type := "function", line := 10, end_line := 12 }

/-- First version of the re-added file. -/
def symsV1 : FileSymbols := { file_path := "a.h", functions := [symF] }

/-- Second version of the re-added file. -/
def symsV2 : FileSymbols := { file_path := "a.h", functions := [symF10] }

/-- The graph after adding `a.h` twice (second add overwrites the first). -/
def gReadd : DependencyGraph := add_file (add_file emptyGraph "a.h" symsV1) "a.h" symsV2

/-- Counterexample for C1: after re-adding path `a.h`, the symbol index still
holds the stale entry `("a.h", symF)` coming from the first version, in front
of the new one — the stale entries are not removed, so the index does hold a
ghost `(path, symbol)` entry for a symbol that is not in the current
`FileSymbols` of `a.h`. -/
theorem add_file_stale_entries_counterexample :
    lookupA gReadd.symbol_index "f" = some [("a.h", symF), ("a.h", symF10)]
    ∧ symF ∉ symsV2.functions ++ symsV2.classes ++ symsV2.structs := by
  exact ⟨by decide, by decide⟩

/-- C1 (amended): `add_file` on an already-present path overwrites the path's
`FileSymbols` in `files` and refreshes `file_index`, but it does **not**
remove the stale symbol-index entries of the earlier add: the new `(path,
symbol)` entries are appended after whatever entries each symbol name already
had, so re-adding a path can leave duplicate/ghost entries in `symbol_index`. -/
theorem add_file_readd_behavior (g : DependencyGraph) (p : String) (s1 s2 : FileSymbols) :
    lookupA (add_file (add_file g p s1) p s2).files p = some s2
    ∧ lookupA (add_file (add_file g p s1) p s2).file_index (pathName p) = some p
    ∧ ∀ n, entriesFor (add_file (add_file g p s1) p s2).symbol_index n
        = entriesFor (add_file g p s1).symbol_index n
          ++ ((s2.functions ++ s2.classes ++ s2.structs).filter
                (fun sym => sym.name == n)).map (fun sym => (p, sym)) := by
  refine ⟨?_, ?_, ?_⟩
  · exact lookupA_insertA_self _ _ _
  · exact lookupA_insertA_self _ _ _
  · intro n
    exact entriesFor_foldl_indexAppend p n _ _

/-! ## C3: guards on Call edges -/

/-- The guard `_analyze_function_calls` enforces when appending an edge `e`
after the already-present edges `prev`: a Call edge is never a self-loop and
never duplicates an ordered pair already connected by any earlier edge. -/
def callSnocOk (prev : List FileDependency) (e : FileDependency) : Prop :=
  e.reason = "call" →
    e.source ≠ e.target ∧ has_dependency prev e.source e.target = false

/-- The guard property over a reversed edge list (head = most recent edge). -/
def CallGuardRev : List FileDependency → Prop
  | [] => True
  | e :: rest => callSnocOk rest.reverse e ∧ CallGuardRev rest

/-- Every edge of the list satisfies the Call guard with respect to the edges
before it. -/
def CallGuard (l : List FileDependency) : Prop := CallGuardRev l.reverse

theorem callGuard_nil : CallGuard [] := trivial

theorem callGuard_snoc {l : List FileDependency} {e : FileDependency}
    (hl : CallGuard l) (he : callSnocOk l e) : CallGuard (l ++ [e]) := by
  unfold CallGuard at hl ⊢
  rw [List.reverse_append, List.reverse_singleton, List.singleton_append]
  exact ⟨by rwa [List.reverse_reverse], hl⟩

theorem callGuardRev_extract {a b : List FileDependency} {e : FileDependency}
    (h : CallGuardRev (a ++ e :: b)) : callSnocOk b.reverse e := by
  induction a with
  | nil => exact h.1
  | cons x xs ih => exact ih h.2

theorem callGuard_extract {l1 l2 : List FileDependency} {e : FileDependency}
    (h : CallGuard (l1 ++ e :: l2)) : callSnocOk l1 e := by
  unfold CallGuard at h
  rw [List.reverse_append, List.reverse_cons, List.append_assoc,
    List.singleton_append] at h
  have := callGuardRev_extract h
  rwa [List.reverse_reverse] at this

theorem callGuard_analyze_includes (g : DependencyGraph) (source_file : String)
    (symbols : FileSymbols) (deps : List FileDependency) (h : CallGuard deps) :
    CallGuard (analyze_includes g deps source_file symbols) := by
  unfold analyze_includes
  refine foldl_preserve CallGuard _ symbols.includes deps (fun ds inc _ hds => ?_) h
  cases hr : resolve_include g inc.path source_file with
  | none => simpa [hr] using hds
  | some target_file =>
    simp only [hr]
    exact callGuard_snoc hds (fun hc => by simp at hc)

theorem callGuard_analyze_function_calls (g : DependencyGraph) (source_file : String)
    (symbols : FileSymbols) (deps : List FileDependency) (h : CallGuard deps) :
    CallGuard (analyze_function_calls g deps source_file symbols) := by
  unfold analyze_function_calls
  refine foldl_preserve CallGuard _ symbols.function_calls deps
    (fun ds called _ hds => ?_) h
  cases hl : lookupA g.symbol_index called with
  | none => simpa [hl] using hds
  | some entries =>
    simp only [hl]
    refine foldl_preserve CallGuard _ entries ds (fun ds2 entry _ hds2 => ?_) hds
    by_cases h1 : entry.1 = source_file
    · simpa [h1] using hds2
    · by_cases h2 : has_dependency ds2 source_file entry.1 = true
      · simpa [h1, h2] using hds2
      · simp only [h1, if_false, h2]
        refine callGuard_snoc hds2 (fun _ => ?_)
        refine ⟨fun he => h1 he.symm, ?_⟩
        simpa using h2

theorem callGuard_analyze_dependencies (g : DependencyGraph) :
    CallGuard (analyze_dependencies g).dependencies := by
  unfold analyze_dependencies
  refine foldl_preserve CallGuard _ g.files [] (fun ds fs _ hds => ?_) callGuard_nil
  exact callGuard_analyze_function_calls g fs.1 fs.2 _
    (callGuard_analyze_includes g fs.1 fs.2 ds hds)

/-- C3: in the edge list produced by `analyze_dependencies`, every edge with
reason `"call"` has distinct source and target, and no edge occurring earlier
in the list connects the same ordered pair (of either reason) — the builder
appends a Call edge only when the target differs from the source and
`_has_dependency` finds no existing edge for the pair. -/
theorem call_edges_guarded (g : DependencyGraph) (l1 l2 : List FileDependency)
    (e : FileDependency)
    (hdec : (analyze_dependencies g).dependencies = l1 ++ e :: l2)
    (hcall : e.reason = "call") :
    e.source ≠ e.target
    ∧ ∀ d ∈ l1, ¬(d.source = e.source ∧ d.target = e.target) := by
  have hg := callGuard_analyze_dependencies g
  rw [hdec] at hg
  obtain ⟨hne, hdep⟩ := callGuard_extract hg hcall
  refine ⟨hne, fun d hd hpair => ?_⟩
  unfold has_dependency at hdep
  rw [List.any_eq_false] at hdep
  have := hdep d hd
  simp only [Bool.and_eq_true, beq_iff_eq] at this
  exact this ⟨hpair.1, hpair.2⟩

/-- Witness for C3: the analyzed caller/definer graph produces exactly the
single Call edge `a.cpp → b.cpp`, decomposed as `[] ++ callEdge :: []`. -/
theorem call_edges_guarded_witness :
    ((analyze_dependencies gCall).dependencies = [] ++ callEdge :: []
      ∧ callEdge.reason = "call")
    ∧ (callEdge.source ≠ callEdge.target
      ∧ ∀ d ∈ ([] : List FileDependency),
          ¬(d.source = callEdge.source ∧ d.target = callEdge.target)) :=
  ⟨⟨by decide, rfl⟩, call_edges_guarded gCall [] [] callEdge (by decide) rfl⟩

/-! ## C6: edges reference only existing file keys -/

/-- The derived indexes point only at paths that are keys of `files` — the
invariant `add_file` maintains. -/
def IndexesValid (g : DependencyGraph) : Prop :=
  (∀ pr ∈ g.file_index, (lookupA g.files pr.2).isSome = true)
  ∧ (∀ pr ∈ g.symbol_index, ∀ e ∈ pr.2, (lookupA g.files e.1).isSome = true)

theorem indexesValid_empty : IndexesValid emptyGraph := by
  constructor <;> intro pr hpr <;> simp [emptyGraph] at hpr

theorem indexesValid_add_file (g : DependencyGraph) (p : String) (s : FileSymbols)
    (h : IndexesValid g) : IndexesValid (add_file g p s) := by
  obtain ⟨hfi, hsi⟩ := h
  constructor
  · intro pr hpr
    rcases mem_insertA _ _ _ _ hpr with hm | he
    · exact lookupA_isSome_insertA _ _ _ _ (hfi pr hm)
    · rw [he]
      show (lookupA (insertA g.files p s) p).isSome = true
      rw [lookupA_insertA_self]
      rfl
  · show ∀ pr ∈ (add_file g p s).symbol_index, _
    unfold add_file
    simp only
    refine foldl_preserve
      (fun idx => ∀ pr ∈ idx, ∀ e ∈ pr.2,
        (lookupA (insertA g.files p s) e.1).isSome = true) _ _ _
      (fun idx sym _ hidx => ?_)
      (fun pr hpr e hepr => lookupA_isSome_insertA _ _ _ _ (hsi pr hpr e hepr))
    intro pr hpr e he
    unfold indexAppend at hpr
    cases hl : lookupA idx sym.name with
    | none =>
      rw [hl] at hpr
      rcases List.mem_append.mp hpr with hm | hm
      · exact hidx pr hm e he
      · simp only [List.mem_singleton] at hm
        rw [hm] at he
        simp only [List.mem_singleton] at he
        rw [he]
        rw [lookupA_insertA_self]
        rfl
    | some l =>
      rw [hl] at hpr
      rcases mem_insertA _ _ _ _ hpr with hm | hm
      · exact hidx pr hm e he
      · rw [hm] at he
        simp only at he
        rcases List.mem_append.mp he with hel | hel
        · exact hidx (sym.name, l) (lookupA_eq_some_mem hl) e hel
        · simp only [List.mem_singleton] at hel
          rw [hel]
          rw [lookupA_insertA_self]
          rfl

theorem indexesValid_buildGraph (l : List (String × FileSymbols)) :
    IndexesValid (buildGraph l) := by
  unfold buildGraph
  exact foldl_preserve IndexesValid _ l emptyGraph
    (fun g fs _ hg => indexesValid_add_file g fs.1 fs.2 hg) indexesValid_empty

theorem resolve_include_target_isSome (g : DependencyGraph)
    (hfi : ∀ pr ∈ g.file_index, (lookupA g.files pr.2).isSome = true)
    {include_path source_file t : String}
    (h : resolve_include g include_path source_file = some t) :
    (lookupA g.files t).isSome = true := by
  unfold resolve_include at h
  by_cases h1 : (lookupA g.files include_path).isSome = true
  · rw [if_pos h1] at h
    cases h
    exact h1
  · rw [if_neg h1] at h
    cases h2 : lookupA g.file_index (pathName include_path) with
    | some p =>
      rw [h2] at h
      cases h
      exact hfi _ (lookupA_eq_some_mem h2)
    | none =>
      rw [h2] at h
      cases h3 : (g.files.map Prod.fst).find?
          (fun fp => strEndsWith fp include_path) with
      | some fp =>
        rw [h3] at h
        cases h
        exact lookupA_isSome_iff_mem_keys.mpr (List.mem_of_find?_eq_some h3)
      | none =>
        rw [h3] at h
        by_cases h4 : (lookupA g.files
            (pathJoin (pathParent source_file) include_path)).isSome = true
        · rw [if_pos h4] at h
          cases h
          exact h4
        · rw [if_neg h4] at h
          have h5 := List.mem_of_find?_eq_some h
          exact lookupA_isSome_iff_mem_keys.mpr h5

/-- Every edge of the list references keys of `g.files`. -/
def EdgesOk (g : DependencyGraph) (ds : List FileDependency) : Prop :=
  ∀ d ∈ ds, (lookupA g.files d.source).isSome = true
    ∧ (lookupA g.files d.target).isSome = true

theorem edgesOk_snoc {g : DependencyGraph} {ds : List FileDependency}
    {e : FileDependency} (h : EdgesOk g ds)
    (hs : (lookupA g.files e.source).isSome = true)
    (ht : (lookupA g.files e.target).isSome = true) : EdgesOk g (ds ++ [e]) := by
  intro d hd
  rcases List.mem_append.mp hd with hm | hm
  · exact h d hm
  · simp only [List.mem_singleton] at hm
    rw [hm]
    exact ⟨hs, ht⟩

theorem edgesOk_analyze_includes (g : DependencyGraph)
    (hfi : ∀ pr ∈ g.file_index, (lookupA g.files pr.2).isSome = true)
    (source_file : String) (symbols : FileSymbols)
    (hsf : (lookupA g.files source_file).isSome = true)
    (ds : List FileDependency) (h : EdgesOk g ds) :
    EdgesOk g (analyze_includes g ds source_file symbols) := by
  unfold analyze_includes
  refine foldl_preserve (EdgesOk g) _ symbols.includes ds (fun ds' inc _ hds => ?_) h
  cases hr : resolve_include g inc.path source_file with
  | none => simpa [hr] using hds
  | some target_file =>
    simp only [hr]
    exact edgesOk_snoc hds hsf (resolve_include_target_isSome g hfi hr)

theorem edgesOk_analyze_function_calls (g : DependencyGraph)
    (hsi : ∀ pr ∈ g.symbol_index, ∀ e ∈ pr.2, (lookupA g.files e.1).isSome = true)
    (source_file : String) (symbols : FileSymbols)
    (hsf : (lookupA g.files source_file).isSome = true)
    (ds : List FileDependency) (h : EdgesOk g ds) :
    EdgesOk g (analyze_function_calls g ds source_file symbols) := by
  unfold analyze_function_calls
  refine foldl_preserve (EdgesOk g) _ symbols.function_calls ds
    (fun ds' called _ hds => ?_) h
  cases hl : lookupA g.symbol_index called with
  | none => simpa [hl] using hds
  | some entries =>
    simp only [hl]
    refine foldl_preserve (EdgesOk g) _ entries ds' (fun ds2 entry hent hds2 => ?_) hds
    by_cases h1 : entry.1 = source_file
    · simpa [h1] using hds2
    · by_cases h2 : has_dependency ds2 source_file entry.1 = true
      · simpa [h1, h2] using hds2
      · simp only [h1, if_false, h2]
        exact edgesOk_snoc hds2 hsf
          (hsi (called, entries) (lookupA_eq_some_mem hl) entry hent)

/-- C6: after an `analyze_dependencies` pass over a graph built by `add_file`
calls, every edge's source and target are keys of the graph's file map — a
failed include or call resolution yields no edge, never a dangling
reference. -/
theorem edges_reference_existing_files (l : List (String × FileSymbols))
    (d : FileDependency)
    (hd : d ∈ (analyze_dependencies (buildGraph l)).dependencies) :
    (lookupA (buildGraph l).files d.source).isSome = true
    ∧ (lookupA (buildGraph l).files d.target).isSome = true := by
  obtain ⟨hfi, hsi⟩ := indexesValid_buildGraph l
  revert d hd
  show EdgesOk (buildGraph l) (analyze_dependencies (buildGraph l)).dependencies
  unfold analyze_dependencies
  refine foldl_preserve (EdgesOk (buildGraph l)) _ (buildGraph l).files []
    (fun ds fs hfs hds => ?_) (fun d hd => absurd hd (List.not_mem_nil d))
  have hsf : (lookupA (buildGraph l).files fs.1).isSome = true :=
    lookupA_isSome_iff_mem_keys.mpr (List.mem_map.mpr ⟨fs, hfs, rfl⟩)
  exact edgesOk_analyze_function_calls _ hsi fs.1 fs.2 hsf _
    (edgesOk_analyze_includes _ hfi fs.1 fs.2 hsf ds hds)

/-- The single Include edge produced by analyzing the includer/header graph. -/
def includeEdge : FileDependency :=
  { source := "a2.cpp", target := "b.h", reason := "include", line := some 3 }

/-- Witness for C6 on a concrete two-file graph with one include edge. -/
theorem edges_reference_existing_files_witness :
    includeEdge ∈ (analyze_dependencies
        (buildGraph [("b.h", symsHeader), ("a2.cpp", symsIncluder)])).dependencies
    ∧ (lookupA (buildGraph [("b.h", symsHeader), ("a2.cpp", symsIncluder)]).files
        includeEdge.source).isSome = true
    ∧ (lookupA (buildGraph [("b.h", symsHeader), ("a2.cpp", symsIncluder)]).files
        includeEdge.target).isSome = true :=
  ⟨by decide,
   edges_reference_existing_files [("b.h", symsHeader), ("a2.cpp", symsIncluder)]
     includeEdge (by decide)⟩

/-! ## C7: coupling ranking -/

/-- Descending order on the coupling component. -/
def descPair (a b : String × Nat) : Prop := b.2 ≤ a.2

theorem filter_cons_true {α : Type} (p : α → Bool) (a : α) (l : List α)
    (h : p a = true) : (a :: l).filter p = a :: l.filter p := by
  simp [List.filter_cons, h]

theorem filter_cons_false {α : Type} (p : α → Bool) (a : α) (l : List α)
    (h : p a = false) : (a :: l).filter p = l.filter p := by
  simp [List.filter_cons, h]

theorem insertDesc_perm (x : String × Nat) (l : List (String × Nat)) :
    (insertDesc x l).Perm (x :: l) := by
  induction l with
  | nil => exact List.Perm.refl _
  | cons y ys ih =>
    by_cases h : y.2 < x.2
    · simp [insertDesc, h]
    · simp only [insertDesc, h, if_false]
      exact (ih.cons y).trans (List.Perm.swap x y ys)

theorem insertDesc_sorted (x : String × Nat) (l : List (String × Nat))
    (h : l.Pairwise descPair) : (insertDesc x l).Pairwise descPair := by
  induction l with
  | nil => simp [insertDesc]
  | cons y ys ih =>
    rcases List.pairwise_cons.mp h with ⟨hy, hys⟩
    by_cases hlt : y.2 < x.2
    · simp only [insertDesc, hlt, if_true]
      refine List.pairwise_cons.mpr ⟨?_, h⟩
      intro z hz
      rcases List.mem_cons.mp hz with hz | hz
      · rw [hz]; exact le_of_lt hlt
      · exact le_trans (hy z hz) (le_of_lt hlt)
    · simp only [insertDesc, hlt, if_false]
      refine List.pairwise_cons.mpr ⟨?_, ih hys⟩
      intro z hz
      have hz' := (insertDesc_perm x ys).mem_iff.mp hz
      rcases List.mem_cons.mp hz' with hz' | hz'
      · rw [hz']; exact Nat.le_of_not_lt hlt
      · exact hy z hz'

theorem filter_insertDesc (c : Nat) (x : String × Nat) (l : List (String × Nat))
    (h : l.Pairwise descPair) :
    (insertDesc x l).filter (fun y => y.2 == c)
      = l.filter (fun y => y.2 == c) ++ (if x.2 == c then [x] else []) := by
  induction l with
  | nil =>
    cases hc : x.2 == c
    · simp [insertDesc, List.filter_cons, hc]
    · simp [insertDesc, List.filter_cons, hc]
  | cons y ys ih =>
    rcases List.pairwise_cons.mp h with ⟨hy, hys⟩
    by_cases hlt : y.2 < x.2
    · simp only [insertDesc, hlt, if_true]
      cases hc : x.2 == c
      · rw [filter_cons_false _ x (y :: ys) (by simpa using hc)]
        simp [hc]
      · rw [filter_cons_true _ x (y :: ys) (by simpa using hc)]
        have hxc : x.2 = c := beq_iff_eq.mp hc
        have hnil : (y :: ys).filter (fun z => z.2 == c) = [] := by
          rw [List.filter_eq_nil_iff]
          intro z hz
          have hzlt : z.2 < c := by
            rcases List.mem_cons.mp hz with hz | hz
            · rw [hz, ← hxc]; exact hlt
            · calc z.2 ≤ y.2 := hy z hz
                _ < x.2 := hlt
                _ = c := hxc
          simp [Nat.ne_of_lt hzlt]
        rw [hnil]
        simp [hc]
    · simp only [insertDesc, hlt, if_false]
      cases hyc : y.2 == c
      · rw [filter_cons_false _ y (insertDesc x ys) (by simpa using hyc),
          filter_cons_false _ y ys (by simpa using hyc), ih hys]
      · rw [filter_cons_true _ y (insertDesc x ys) (by simpa using hyc),
          filter_cons_true _ y ys (by simpa using hyc), ih hys,
          List.cons_append]

theorem filter_sortDesc_aux (c : Nat) (l : List (String × Nat)) :
    ∀ acc, acc.Pairwise descPair →
      (l.foldl (fun acc x => insertDesc x acc) acc).filter (fun y => y.2 == c)
        = acc.filter (fun y => y.2 == c) ++ l.filter (fun y => y.2 == c) := by
  induction l with
  | nil => intro acc _; simp
  | cons x xs ih =>
    intro acc hacc
    rw [List.foldl_cons, ih (insertDesc x acc) (insertDesc_sorted x acc hacc),
      filter_insertDesc c x acc hacc, List.append_assoc]
    cases hc : x.2 == c
    · rw [filter_cons_false _ x xs (by simpa using hc)]
      simp [hc]
    · rw [filter_cons_true _ x xs (by simpa using hc)]
      simp [hc]

theorem filter_sortDesc (c : Nat) (l : List (String × Nat)) :
    (sortDesc l).filter (fun y => y.2 == c) = l.filter (fun y => y.2 == c) := by
  have := filter_sortDesc_aux c l [] (List.Pairwise.nil)
  simpa [sortDesc] using this

theorem sortDesc_perm_aux (l : List (String × Nat)) :
    ∀ acc, (l.foldl (fun acc x => insertDesc x acc) acc).Perm (acc ++ l) := by
  induction l with
  | nil => intro acc; simp
  | cons x xs ih =>
    intro acc
    rw [List.foldl_cons]
    exact (ih (insertDesc x acc)).trans
      (((insertDesc_perm x acc).append_right xs).trans List.perm_middle.symm)

theorem sortDesc_perm (l : List (String × Nat)) : (sortDesc l).Perm l := by
  have := sortDesc_perm_aux l []
  simpa [sortDesc] using this

theorem sortDesc_sorted (l : List (String × Nat)) :
    (sortDesc l).Pairwise descPair := by
  unfold sortDesc
  exact foldl_preserve (fun acc => acc.Pairwise descPair) _ l []
    (fun acc x _ hacc => insertDesc_sorted x acc hacc) List.Pairwise.nil

/-- C7: `get_most_coupled_files limit` is the first `limit` entries of a list
that (i) is a permutation of the per-file coupling items (one entry per file,
in insertion order, with coupling = dependency count plus dependent count),
(ii) is sorted in descending coupling order, and (iii) is stable: for every
coupling value `c`, the entries with coupling `c` appear exactly in their
original insertion order.  The result has at most `limit` entries. -/
theorem get_most_coupled_files_spec (g : DependencyGraph) (limit : Nat) :
    get_most_coupled_files g limit = (sortDesc (couplingItems g)).take limit
    ∧ (get_most_coupled_files g limit).length ≤ limit
    ∧ (sortDesc (couplingItems g)).Perm (couplingItems g)
    ∧ (sortDesc (couplingItems g)).Pairwise (fun a b => b.2 ≤ a.2)
    ∧ ∀ c, (sortDesc (couplingItems g)).filter (fun y => y.2 == c)
        = (couplingItems g).filter (fun y => y.2 == c) := by
  refine ⟨rfl, ?_, sortDesc_perm _, sortDesc_sorted _, fun c => filter_sortDesc c _⟩
  show ((sortDesc (couplingItems g)).take limit).length ≤ limit
  rw [List.length_take]
  exact min_le_left _ _

/-! ## C9: export file-type classification -/

/-- Graph holding one CMake build script. -/
def gCMake : DependencyGraph :=
  add_file emptyGraph "CMakeLists.txt" { file_path := "CMakeLists.txt" }

/-- Counterexample for C9: the exported node for `CMakeLists.txt` has type
`"cmake"`, which is not one of the five labels
`{header, source, buildScript, jsonData, other}` the claim asserts — the code
uses the labels `"cmake"` and `"json"`, not `"buildScript"` and
`"jsonData"`. -/
theorem export_type_label_counterexample :
    (export_to_dict gCMake).nodes.map (fun n => n.type) = ["cmake"]
    ∧ "cmake" ∉ ["header", "source", "buildScript", "jsonData", "other"] := by
  exact ⟨by decide, by decide⟩

/-- Classification of a file path following the amended spec wording: the
same suffix/name rules, with labels `cmake` and `json` in place of the
spec's `buildScript` and `jsonData`. -/
def specFileType (p : String) : String :=
  if strEndsWith p ".h" || strEndsWith p ".hpp" || strEndsWith p ".hh" then
    "header"
  else if strEndsWith p ".cpp" || strEndsWith p ".cc" || strEndsWith p ".cxx"
      || strEndsWith p ".c" then
    "source"
  else if containsSubstr p "CMakeLists" || strEndsWith p ".cmake" then
    "cmake"
  else if strEndsWith p ".json" then
    "json"
  else
    "other"

/-- C9 (amended): every exported node's `type` is classified by the
documented suffix/name rules into one of
`{header, source, cmake, json, other}`: suffixes `.h/.hpp/.hh` give
`header`; `.cpp/.cc/.cxx/.c` give `source`; a name containing `CMakeLists`
or suffix `.cmake` gives `cmake`; suffix `.json` gives `json`; every other
path gives `other`. -/
theorem export_type_classified (g : DependencyGraph) (node : ExportNode)
    (h : node ∈ (export_to_dict g).nodes) :
    node.type = specFileType node.id
    ∧ node.type ∈ ["header", "source", "cmake", "json", "other"] := by
  obtain ⟨fs, _, hn⟩ := List.mem_map.mp h
  have htype : node.type = file_type_of fs.1 := by rw [← hn]
  have hid : node.id = fs.1 := by rw [← hn]
  constructor
  · rw [htype, hid]
    rfl
  · rw [htype]
    unfold file_type_of
    split
    · simp
    · split
      · simp
      · split
        · simp
        · split <;> simp

/-- The single node exported from the CMake graph. -/
def cmakeNode : ExportNode :=
  { id := "CMakeLists.txt", name := "CMakeLists.txt", type := "cmake",
    group := "root", exportedSymbols := [],
    metrics := get_file_metrics gCMake "CMakeLists.txt" }

/-- Witness for C9 on the one-node CMake graph. -/
theorem export_type_classified_witness :
    cmakeNode ∈ (export_to_dict gCMake).nodes
    ∧ cmakeNode.type = specFileType cmakeNode.id
    ∧ cmakeNode.type ∈ ["header", "source", "cmake", "json", "other"] :=
  ⟨by decide, export_type_classified gCMake cmakeNode (by decide)⟩

/-! ## C2: simple-cycle enumeration -/

/-- Proposition form of `isCycleList`. -/
def IsSimpleCycle (edges : List (String × String)) (l : List String) : Prop :=
  isCycleList edges l = true

instance isSimpleCycleDecidable (edges : List (String × String)) (l : List String) :
    Decidable (IsSimpleCycle edges l) :=
  inferInstanceAs (Decidable (isCycleList edges l = true))

theorem hasEdge_iff {edges : List (String × String)} {a b : String} :
    hasEdge edges a b = true ↔ ∃ e ∈ edges, e.1 = a ∧ e.2 = b := by
  unfold hasEdge
  rw [List.any_eq_true]
  constructor
  · rintro ⟨e, he, hp⟩
    simp only [Bool.and_eq_true, beq_iff_eq] at hp
    exact ⟨e, he, hp⟩
  · rintro ⟨e, he, h1, h2⟩
    exact ⟨e, he, by simp [h1, h2]⟩

theorem mem_insertNode_self (ns : List String) (x : String) : x ∈ insertNode ns x := by
  unfold insertNode
  by_cases h : x ∈ ns
  · simp [h]
  · simp [h]

theorem mem_insertNode_of_mem (ns : List String) (x y : String) (h : x ∈ ns) :
    x ∈ insertNode ns y := by
  unfold insertNode
  by_cases hy : y ∈ ns
  · simpa [hy] using h
  · simp [hy, h]

theorem mem_foldl_insertNode (x : String) (l : List (String × String))
    (acc : List String) (h : x ∈ acc) :
    x ∈ l.foldl (fun ns e => insertNode (insertNode ns e.1) e.2) acc :=
  foldl_preserve (fun ns => x ∈ ns) _ l acc
    (fun _ _ _ hx => mem_insertNode_of_mem _ _ _ (mem_insertNode_of_mem _ _ _ hx)) h

theorem mem_graphNodes_aux (e : String × String) :
    ∀ (l : List (String × String)) (acc : List String), e ∈ l →
      e.1 ∈ l.foldl (fun ns e => insertNode (insertNode ns e.1) e.2) acc
      ∧ e.2 ∈ l.foldl (fun ns e => insertNode (insertNode ns e.1) e.2) acc := by
  intro l
  induction l with
  | nil => intro acc h; exact absurd h (List.not_mem_nil e)
  | cons f fs ih =>
    intro acc h
    rcases List.mem_cons.mp h with h | h
    · subst h
      rw [List.foldl_cons]
      constructor
      · exact mem_foldl_insertNode _ fs _
          (mem_insertNode_of_mem _ _ _ (mem_insertNode_self acc e.1))
      · exact mem_foldl_insertNode _ fs _ (mem_insertNode_self _ e.2)
    · rw [List.foldl_cons]
      exact ih _ h

theorem mem_graphNodes (edges : List (String × String)) (e : String × String)
    (he : e ∈ edges) : e.1 ∈ graphNodes edges ∧ e.2 ∈ graphNodes edges :=
  mem_graphNodes_aux e edges [] he

theorem chainOk_append_singleton (edges : List (String × String)) (x : String) :
    ∀ (l : List String), l ≠ [] →
      (chainOk edges (l ++ [x]) = true ↔
        chainOk edges l = true ∧ hasEdge edges (l.getLastD "") x = true)
  | [], h => absurd rfl h
  | [a], _ => by
    show (hasEdge edges a x && chainOk edges [x]) = true ↔
      chainOk edges [a] = true ∧ hasEdge edges a x = true
    simp [chainOk]
  | a :: b :: rest, _ => by
    have ih := chainOk_append_singleton edges x (b :: rest) (List.cons_ne_nil _ _)
    show (hasEdge edges a b && chainOk edges ((b :: rest) ++ [x])) = true ↔
      chainOk edges (a :: b :: rest) = true
        ∧ hasEdge edges ((a :: b :: rest).getLastD "") x = true
    rw [Bool.and_eq_true, ih]
    have hck : chainOk edges (a :: b :: rest)
        = (hasEdge edges a b && chainOk edges (b :: rest)) := rfl
    rw [hck, Bool.and_eq_true]
    have hgl : (a :: b :: rest).getLastD "" = (b :: rest).getLastD "" := by
      simp [List.getLastD_cons]
    rw [hgl]
    tauto

theorem isCycleList_cons (edges : List (String × String)) (a : String)
    (rest : List String) :
    isCycleList edges (a :: rest)
      = (decide ((a :: rest).Nodup) && chainOk edges (a :: rest)
          && hasEdge edges ((a :: rest).getLastD "") a) := rfl

theorem isSimpleCycle_iff (edges : List (String × String)) (a : String)
    (rest : List String) :
    IsSimpleCycle edges (a :: rest) ↔
      (a :: rest).Nodup ∧ chainOk edges ((a :: rest) ++ [a]) = true := by
  unfold IsSimpleCycle
  rw [isCycleList_cons, Bool.and_eq_true, Bool.and_eq_true, decide_eq_true_eq,
    chainOk_append_singleton edges a (a :: rest) (List.cons_ne_nil a rest)]
  tauto

theorem isSimpleCycle_ne_nil {edges : List (String × String)} {l : List String}
    (h : IsSimpleCycle edges l) : l ≠ [] := by
  intro he
  rw [he] at h
  exact absurd h (by simp [IsSimpleCycle, isCycleList])

theorem isSimpleCycle_nodup {edges : List (String × String)} {l : List String}
    (h : IsSimpleCycle edges l) : l.Nodup := by
  cases l with
  | nil => exact List.nodup_nil
  | cons a rest => exact ((isSimpleCycle_iff edges a rest).mp h).1

theorem isSimpleCycle_rotateOne (edges : List (String × String)) (a : String)
    (rest : List String) (h : IsSimpleCycle edges (a :: rest)) :
    IsSimpleCycle edges (rest ++ [a]) := by
  cases rest with
  | nil => simpa using h
  | cons b rs =>
    rw [isSimpleCycle_iff] at h
    obtain ⟨hnd, hch⟩ := h
    have hch2 : (hasEdge edges a b && chainOk edges ((b :: rs) ++ [a])) = true := hch
    rw [Bool.and_eq_true] at hch2
    obtain ⟨hab, hchtail⟩ := hch2
    show IsSimpleCycle edges (b :: (rs ++ [a]))
    rw [isSimpleCycle_iff]
    constructor
    · exact ((List.perm_append_singleton a (b :: rs)).symm).nodup hnd
    · rw [chainOk_append_singleton edges b (b :: (rs ++ [a])) (List.cons_ne_nil _ _)]
      refine ⟨hchtail, ?_⟩
      have hgl : (b :: (rs ++ [a])).getLastD "" = a := by
        rw [List.getLastD_cons, List.getLastD_concat]
      rw [hgl]
      exact hab

theorem isSimpleCycle_rotateN (edges : List (String × String)) :
    ∀ (n : Nat) (l : List String), IsSimpleCycle edges l →
      IsSimpleCycle edges (l.rotate' n) := by
  intro n
  induction n with
  | zero => intro l h; simpa using h
  | succ m ih =>
    intro l h
    cases l with
    | nil => exact absurd (isSimpleCycle_ne_nil h) (by simp)
    | cons a rest =>
      rw [List.rotate'_cons_succ]
      exact ih _ (isSimpleCycle_rotateOne edges a rest h)

theorem isSimpleCycle_rotate (edges : List (String × String)) (l : List String)
    (n : Nat) (h : IsSimpleCycle edges l) : IsSimpleCycle edges (l.rotate n) := by
  rw [List.rotate_eq_rotate']
  exact isSimpleCycle_rotateN edges n l h

theorem chain_sources (edges : List (String × String)) :
    ∀ (L : List String), chainOk edges L = true →
      ∀ x ∈ L.dropLast, ∃ y, hasEdge edges x y = true := by
  intro L
  induction L with
  | nil => intro _ x hx; simp at hx
  | cons a rest ih =>
    cases rest with
    | nil => intro _ x hx; simp at hx
    | cons b rs =>
      intro hch x hx
      have hch2 : (hasEdge edges a b && chainOk edges (b :: rs)) = true := hch
      rw [Bool.and_eq_true] at hch2
      have hx2 : x ∈ a :: (b :: rs).dropLast := hx
      rcases List.mem_cons.mp hx2 with hx2 | hx2
      · exact ⟨b, hx2 ▸ hch2.1⟩
      · exact ih hch2.2 x hx2

theorem isSimpleCycle_subset_nodes (edges : List (String × String))
    (l : List String) (h : IsSimpleCycle edges l) :
    ∀ x ∈ l, x ∈ graphNodes edges := by
  intro x hx
  cases l with
  | nil => simp at hx
  | cons a rest =>
    have hch := ((isSimpleCycle_iff edges a rest).mp h).2
    have hsrc := chain_sources edges ((a :: rest) ++ [a]) hch x
      (by rw [List.dropLast_concat]; exact hx)
    obtain ⟨y, hy⟩ := hsrc
    obtain ⟨e, he, h1, _⟩ := hasEdge_iff.mp hy
    exact h1 ▸ (mem_graphNodes edges e he).1

theorem simpleCyclesOf_sound (edges : List (String × String)) (c : List String)
    (hc : c ∈ simpleCyclesOf edges) : IsSimpleCycle edges c := by
  unfold simpleCyclesOf at hc
  have hfil := (List.mem_filter.mp hc).2
  rw [Bool.and_eq_true] at hfil
  exact hfil.1

theorem exists_min_image_list (f : String → Nat) :
    ∀ (l : List String), l ≠ [] → ∃ m ∈ l, ∀ b ∈ l, f m ≤ f b := by
  intro l
  induction l with
  | nil => intro h; exact absurd rfl h
  | cons a rest ih =>
    intro _
    cases rest with
    | nil =>
      refine ⟨a, List.mem_singleton_self a, ?_⟩
      intro b hb
      rw [List.mem_singleton.mp hb]
    | cons c cs =>
      obtain ⟨m, hm, hmin⟩ := ih (List.cons_ne_nil c cs)
      by_cases hf : f a ≤ f m
      · refine ⟨a, List.mem_cons_self _ _, ?_⟩
        intro b hb
        rcases List.mem_cons.mp hb with hb | hb
        · rw [hb]
        · exact le_trans hf (hmin b hb)
      · refine ⟨m, List.mem_cons_of_mem _ hm, ?_⟩
        intro b hb
        rcases List.mem_cons.mp hb with hb | hb
        · rw [hb]; exact le_of_not_le hf
        · exact hmin b hb

theorem simpleCyclesOf_complete (edges : List (String × String)) (c : List String)
    (hc : IsSimpleCycle edges c) : ∃ k, c.rotate k ∈ simpleCyclesOf edges := by
  have hne : c ≠ [] := isSimpleCycle_ne_nil hc
  obtain ⟨m, hm, hmin⟩ := exists_min_image_list (nodeIdx (graphNodes edges)) c hne
  obtain ⟨i, hi, hci⟩ := List.getElem_of_mem hm
  refine ⟨i, ?_⟩
  have hcyc : IsSimpleCycle edges (c.rotate i) := isSimpleCycle_rotate edges c i hc
  have hrne : c.rotate i ≠ [] := isSimpleCycle_ne_nil hcyc
  obtain ⟨hd, tl, hcons⟩ := List.exists_cons_of_ne_nil hrne
  have h1 := List.head?_rotate hi
  rw [hcons, List.head?_cons, List.getElem?_eq_getElem hi, hci] at h1
  have hhd : hd = m := Option.some.inj h1
  have hsub : ∀ x ∈ c.rotate i, x ∈ graphNodes edges := fun x hx =>
    isSimpleCycle_subset_nodes edges c hc x (List.mem_rotate.mp hx)
  have hnd : (c.rotate i).Nodup := List.nodup_rotate.mpr (isSimpleCycle_nodup hc)
  obtain ⟨s, hsperm, hssub⟩ := hnd.subperm (fun x hx => hsub x hx)
  have hmem : c.rotate i
      ∈ (graphNodes edges).sublists.flatMap (fun s => s.permutations') :=
    List.mem_flatMap.mpr
      ⟨s, List.mem_sublists.mpr hssub, List.mem_permutations'.mpr hsperm.symm⟩
  have hcanon : isCanon (graphNodes edges) (c.rotate i) = true := by
    rw [hcons]
    unfold isCanon
    rw [List.all_eq_true]
    intro b hb
    apply decide_eq_true
    rw [hhd]
    have hbr : b ∈ c.rotate i := by
      rw [hcons]
      exact List.mem_cons_of_mem _ hb
    exact hmin b (List.mem_rotate.mp hbr)
  refine List.mem_filter.mpr ⟨hmem, ?_⟩
  rw [Bool.and_eq_true]
  exact ⟨hcyc, hcanon⟩

/-- The 3-node cyclic graph A→B, B→C, C→A from the spec's test vector. -/
def triGraph : DependencyGraph :=
  { dependencies := [{ source := "A", target := "B", reason := "include" },
                     { source := "B", target := "C", reason := "include" },
                     { source := "C", target := "A", reason := "include" }] }

/-- C2: `find_circular_dependencies` enumerates the simple directed cycles of
the digraph built from the edge list (parallel edges collapsing): every
returned list is a simple cycle (soundness), every simple cycle appears up to
rotation (completeness, so an acyclic edge set yields the empty sequence,
stated as the disjunction), and on the 3-node cycle A→B, B→C, C→A it returns
exactly the one cycle `["A", "B", "C"]`. -/
theorem find_circular_dependencies_spec :
    (∀ g : DependencyGraph,
      (∀ c ∈ find_circular_dependencies g,
        IsSimpleCycle (g.dependencies.map (fun d => (d.source, d.target))) c)
      ∧ (∀ c, IsSimpleCycle (g.dependencies.map (fun d => (d.source, d.target))) c →
          ∃ k, c.rotate k ∈ find_circular_dependencies g)
      ∧ ((∃ c, IsSimpleCycle (g.dependencies.map (fun d => (d.source, d.target))) c)
        ∨ find_circular_dependencies g = []))
    ∧ find_circular_dependencies triGraph = [["A", "B", "C"]] := by
  constructor
  · intro g
    refine ⟨fun c hc => simpleCyclesOf_sound _ c hc,
      fun c hc => simpleCyclesOf_complete _ c hc, ?_⟩
    cases hres : find_circular_dependencies g with
    | nil => exact Or.inr rfl
    | cons c cs =>
      refine Or.inl ⟨c, simpleCyclesOf_sound _ c ?_⟩
      show c ∈ find_circular_dependencies g
      rw [hres]
      exact List.mem_cons_self c cs
  · decide

/-- Witness for C2: the rotated triangle cycle `["B", "C", "A"]` is a simple
cycle of `triGraph`, and completeness returns one of its rotations. -/
theorem find_circular_dependencies_spec_witness :
    IsSimpleCycle (triGraph.dependencies.map (fun d => (d.source, d.target)))
      ["B", "C", "A"]
    ∧ ∃ k, (["B", "C", "A"] : List String).rotate k
        ∈ find_circular_dependencies triGraph :=
  ⟨by decide,
   (find_circular_dependencies_spec.1 triGraph).2.1 ["B", "C", "A"] (by decide)⟩

end CppRelations
